import Mathlib

/-!
# Verification of the IMDCT of `src/symphonia-core/src/dsp/mdct.rs`

Shallow embedding of the Symphonia IMDCT (`Imdct::new`, `Imdct::imdct`) with
sample arithmetic modelled over the real numbers (the Rust code computes with
`f32`/`f64`; the idealized real-valued semantics is used for all functional
statements, so equalities below are exact rather than up to rounding).

The destination buffer is modelled as a total function `ℕ → ℝ` together with
its length.  Every in-place loop of the source is translated as a `List.foldl`
of single-cell stores over exactly the index sequence the Rust iterator
visits, so the read/write aliasing order of the source is preserved verbatim.
The `assert!` / slice-index panics of the source are modelled by returning
`Except.error` carrying the destination buffer as it is at the moment of the
panic.

The DCT-II engine (`super::dct::Dct`) is an external collaborator whose
source file is not part of the provided sources; its in-place transform is
modelled from the spec (see `Dct.dctII`).
-/

open Real

namespace Symphonia

/-- A single store `buf[i] = v` into a buffer modelled as a total function. -/
def upd (f : ℕ → ℝ) (i : ℕ) (v : ℝ) : ℕ → ℝ :=
  fun j => if j = i then v else f j

/-- `u32::is_power_of_two`, i.e. `n != 0 && n & (n - 1) == 0`
(`Imdct::new` line 41 requires it). -/
def isPow2 (n : ℕ) : Bool :=
  n != 0 && (n &&& (n - 1)) == 0

/-- The DCT-II engine owned by `Imdct` (`super::dct::Dct`).  Its source file
is not among the provided sources; per the spec it carries only its fixed
size as configuration ("sized once at construction"). -/
structure Dct where
  n : ℕ

/-- `Dct::new` (constructor of the external DCT-II engine). -/
def Dct.new (n : ℕ) : Dct :=
  ⟨n⟩

/-- Modelled from the spec: the forward transform `Dct::dct_ii_inplace`
(file `src/symphonia-core/src/dsp/dct.rs`, not among the provided sources).
The spec (§2, §6) says the engine "computes the forward Discrete Cosine
Transform, Type II, in place" on a buffer of length `n`; this is the
standard (unnormalized) DCT-II `X_k = Σ_{i<n} x_i · cos(π k (2i+1) / (2n))`.
This value function is applied to the second half of `dst` by `dctStep`. -/
noncomputable def Dct.dctII (n : ℕ) (x : ℕ → ℝ) (k : ℕ) : ℝ :=
  ∑ i ∈ Finset.range n, x i * Real.cos (π * k * (2 * i + 1) / (2 * n))

/-- Effect of `self.dct.dct_ii_inplace(&mut dst[n2..]);` on the whole buffer:
cells `[n2, n2+n2)` are overwritten with the DCT-II of their current
contents, every other cell is untouched. -/
noncomputable def dctStep (n2 : ℕ) (d : ℕ → ℝ) : ℕ → ℝ :=
  fun j =>
    if n2 ≤ j ∧ j < n2 + n2 then Dct.dctII n2 (fun i => d (n2 + i)) (j - n2)
    else d j

/-- The number of iterations of the pre-rotation loop: the Rust zip
`dst[n2..].iter_mut().zip(src).zip(&self.table)` stops at the shortest of
the three (the slice `dst[n2..]` has length `n2` once the asserts passed). -/
def preRotateLen (n2 : ℕ) (src table : List ℝ) : ℕ :=
  min n2 (min src.length table.length)

/-- `for ((ds, &src), &cos) in dst[n2..].iter_mut().zip(src).zip(&self.table)
{ *ds = src * cos; }` (mdct.rs lines 80-82). -/
noncomputable def preRotate (n2 : ℕ) (src table : List ℝ) (d : ℕ → ℝ) : ℕ → ℝ :=
  (List.range (preRotateLen n2 src table)).foldl
    (fun b i => upd b (n2 + i) (src.getD i 0 * table.getD i 0)) d

/-- The "map c to b" half of the DCT-II → DCT-IV step (mdct.rs lines 99-104):
`b[0] = -0.5 * c[0]; for i in 1..n4 { b[i] = -1.0 * (c[i] + b[i - 1]); }`.
The quarter regions sit at absolute offsets `a = [0,n4)`, `b = [n4,2n4)`,
`c = [2n4,3n4)`, `d = [3n4,4n4)` of the buffer. -/
noncomputable def mapCtoB (n4 : ℕ) (d : ℕ → ℝ) : ℕ → ℝ :=
  (List.range' 1 (n4 - 1)).foldl
    (fun b i => upd b (n4 + i) (-1 * (b (2 * n4 + i) + b (n4 + (i - 1)))))
    (upd d n4 (-0.5 * d (2 * n4)))

/-- The "map d to c" half of the DCT-II → DCT-IV step (mdct.rs lines 106-111):
`c[0] = d[0] + b[n4 - 1]; for i in 1..n4 { c[i] = d[i] - c[i - 1]; }`. -/
noncomputable def mapDtoC (n4 : ℕ) (d : ℕ → ℝ) : ℕ → ℝ :=
  (List.range' 1 (n4 - 1)).foldl
    (fun b i => upd b (2 * n4 + i) (b (3 * n4 + i) - b (2 * n4 + (i - 1))))
    (upd d (2 * n4) (d (3 * n4) + d (n4 + (n4 - 1))))

/-- First expansion loop (mdct.rs lines 117-120):
`for (sa, &sc) in a.iter_mut().zip(c.iter()) { *sa = scale * sc; }`. -/
noncomputable def expandA (n4 : ℕ) (scale : ℝ) (d : ℕ → ℝ) : ℕ → ℝ :=
  (List.range n4).foldl (fun b i => upd b i (scale * b (2 * n4 + i))) d

/-- Second expansion loop (mdct.rs lines 122-128):
`for ((sd, sc), &sb) in d.iter_mut().zip(c.iter_mut().rev()).zip(b.iter())
{ let s = scale * sb; *sd = s; *sc = s; }` — at step `i` it reads
`s = scale * b[i]` and stores it at `d[i]` (forward) and `c[n4-1-i]`
(reversed). -/
noncomputable def expandDC (n4 : ℕ) (scale : ℝ) (d : ℕ → ℝ) : ℕ → ℝ :=
  (List.range n4).foldl
    (fun b i =>
      let s := scale * b (n4 + i)
      upd (upd b (3 * n4 + i) s) (2 * n4 + (n4 - 1 - i)) s) d

/-- Third expansion loop (mdct.rs lines 130-134):
`for (sb, &sa) in b.iter_mut().zip(a.iter().rev()) { *sb = -1.0 * sa; }`. -/
noncomputable def expandB (n4 : ℕ) (d : ℕ → ℝ) : ℕ → ℝ :=
  (List.range n4).foldl (fun b i => upd b (n4 + i) (-1 * b (n4 - 1 - i))) d

/-- `Imdct` (mdct.rs lines 29-33). -/
structure Imdct where
  dct : Dct
  n : ℕ
  table : List ℝ

/-- `Imdct::new` (mdct.rs lines 39-56).  The two `assert!`s (power of two,
`n ≤ 8192`) are modelled by returning `none` (the spec's
`ConfigurationError`).  The twiddle table is
`table[i] = 2 · cos(c · (2i+1))` with `c = π / (2·2·n)`; the source computes
it in `f64` and narrows each entry to `f32`, which the real-valued model
renders as the exact value. -/
noncomputable def Imdct.new (n : ℕ) : Option Imdct :=
  if isPow2 n then
    if n ≤ 8192 then
      some ⟨Dct.new n, n,
        List.ofFn (fun i : Fin n =>
          2 * Real.cos (π / (2 * 2 * (n : ℝ)) * (2 * (i : ℝ) + 1)))⟩
    else none
  else none

/-- `Imdct::imdct` (mdct.rs lines 67-131).  The two `assert_eq!` length
checks and the slice-index panic are modelled as `Except.error` carrying the
destination buffer exactly as it stands when the corresponding Rust call
panics; `Except.ok` carries the fully rewritten destination buffer.

When `n4 = 0` (i.e. `self.n = 1`) the length asserts pass and the
pre-rotation and DCT-II have already rewritten the second half of `dst`
before `b[0] = -0.5 * c[0]` indexes the empty quarter region `b` and the
call panics; every quarter-region access of the remaining code lies in
bounds whenever `n4 ≥ 1` (loop indices range over `[0,n4)` or `[1,n4)`, and
the accesses `b[0]`, `c[0]`, `d[0]`, `b[n4-1]` need `n4 ≥ 1`). -/
noncomputable def Imdct.imdct (m : Imdct) (src dst : List ℝ) (scale : ℝ) :
    Except (List ℝ) (List ℝ) :=
  let n2 := m.n
  let n := n2 * 2
  let n4 := n2 / 2
  if dst.length = n then
    if src.length = n2 then
      let buf2 : ℕ → ℝ := dctStep n2 (preRotate n2 src m.table (fun i => dst.getD i 0))
      if n4 = 0 then
        Except.error (List.ofFn (fun i : Fin n => buf2 i))
      else
        Except.ok (List.ofFn (fun i : Fin n =>
          expandB n4 (expandDC n4 scale (expandA n4 scale
            (mapDtoC n4 (mapCtoB n4 buf2)))) i))
    else Except.error dst
  else Except.error dst

/-- `tests::imdct_analytical` (mdct.rs lines 139-158): the closed-form
O(N²) IMDCT the source's own test compares `Imdct::imdct` against:
`y[i] = scale · Σ_{j<N} x[j] · cos(π/(2·2N) · (2i+1+N)(2j+1))` for
`i < 2N`. -/
noncomputable def imdct_analytical (x : List ℝ) (scale : ℝ) : List ℝ :=
  List.ofFn (fun i : Fin (2 * x.length) =>
    scale * ∑ j ∈ Finset.range x.length,
      x.getD j 0 * Real.cos (π / (2 * (2 * (x.length : ℝ))) *
        ((2 * (i : ℝ) + 1 + (x.length : ℝ)) * (2 * (j : ℝ) + 1))))

/-- The sequence of values the `c → b` loop of the DCT-II → DCT-IV step
writes into region `b`, as a recurrence over the values `c0` region `c`
holds when the loop starts. -/
noncomputable def bRec (c0 : ℕ → ℝ) : ℕ → ℝ
  | 0 => -0.5 * c0 0
  | i + 1 => -1 * (c0 (i + 1) + bRec c0 i)

/-- The sequence of values the `d → c` loop writes into region `c`, as a
recurrence over the values `d0` region `d` holds and the value `binit`
cell `b[n4-1]` holds when the loop starts. -/
noncomputable def cRec (d0 : ℕ → ℝ) (binit : ℝ) : ℕ → ℝ
  | 0 => d0 0 + binit
  | i + 1 => d0 (i + 1) - cRec d0 binit i

/-- `Σ_{j<n2} src[j] · cos(π · t · (2j+1) / (4·n2))` for an integer `t`:
the trigonometric sums all stages of the reduction take values in.
`trigF n2 src (2k+1)` is the `k`-th DCT-IV coefficient of `src`, and the
analytical IMDCT output at `i` is `trigF n2 src (2i+1+n2)`. -/
noncomputable def trigF (n2 : ℕ) (src : List ℝ) (t : ℤ) : ℝ :=
  ∑ j ∈ Finset.range n2,
    src.getD j 0 * Real.cos (π * (t : ℝ) * (2 * (j : ℝ) + 1) / (4 * (n2 : ℝ)))

/-! ## Buffer and list helper lemmas -/

lemma upd_self (f : ℕ → ℝ) (i : ℕ) (v : ℝ) : upd f i v i = v := by
  simp [upd]

lemma upd_ne (f : ℕ → ℝ) (i : ℕ) (v : ℝ) {j : ℕ} (h : j ≠ i) : upd f i v j = f j := by
  simp [upd, h]

lemma getD_ofFn {n : ℕ} (f : Fin n → ℝ) {i : ℕ} (h : i < n) :
    (List.ofFn f).getD i 0 = f ⟨i, h⟩ := by
  simp [List.getD_eq_getElem?_getD, List.getElem?_ofFn, List.ofFnNthVal, h]

/-! ## Characterization of each loop of `Imdct::imdct`

Each loop of the source is a `foldl` of single-cell stores; the lemmas below
describe, by induction over the iteration count, the buffer the loop
produces as a function of the buffer it starts from.  Together they pin
down the read/write aliasing the spec discusses: each lemma's proof has to
check that every read of an iteration lands either on a cell no iteration
writes, or on the cell the previous iteration wrote. -/

lemma preRotate_foldl_eq (n2 : ℕ) (g : ℕ → ℝ) :
    ∀ (L : ℕ) (d : ℕ → ℝ) (j : ℕ),
      (List.range L).foldl (fun b i => upd b (n2 + i) (g i)) d j =
        if n2 ≤ j ∧ j < n2 + L then g (j - n2) else d j := by
  intro L
  induction L with
  | zero =>
    intro d j
    simp only [List.range_zero, List.foldl_nil]
    have : ¬(n2 ≤ j ∧ j < n2 + 0) := by omega
    rw [if_neg this]
  | succ L ih =>
    intro d j
    rw [List.range_succ, List.foldl_append, List.foldl_cons, List.foldl_nil]
    by_cases hj : j = n2 + L
    · subst hj
      rw [upd_self]
      have hc : n2 ≤ n2 + L ∧ n2 + L < n2 + (L + 1) := by omega
      rw [if_pos hc]
      congr 1
      omega
    · rw [upd_ne _ _ _ hj, ih d j]
      split_ifs with h1 h2 h2 <;> first | rfl | omega

lemma preRotate_eq (n2 : ℕ) (src table : List ℝ) (d : ℕ → ℝ) (j : ℕ) :
    preRotate n2 src table d j =
      if n2 ≤ j ∧ j < n2 + preRotateLen n2 src table
      then src.getD (j - n2) 0 * table.getD (j - n2) 0
      else d j := by
  unfold preRotate
  exact preRotate_foldl_eq n2 (fun i => src.getD i 0 * table.getD i 0) _ d j

lemma expandA_aux (n4 : ℕ) (scale : ℝ) (d : ℕ → ℝ) :
    ∀ k, k ≤ n4 → ∀ j,
      (List.range k).foldl (fun b i => upd b i (scale * b (2 * n4 + i))) d j =
        if j < k then scale * d (2 * n4 + j) else d j := by
  intro k
  induction k with
  | zero =>
    intro _ j
    simp only [List.range_zero, List.foldl_nil]
    rw [if_neg (by omega)]
  | succ k ih =>
    intro hk j
    rw [List.range_succ, List.foldl_append, List.foldl_cons, List.foldl_nil]
    have hread : (List.range k).foldl (fun b i => upd b i (scale * b (2 * n4 + i))) d
        (2 * n4 + k) = d (2 * n4 + k) := by
      rw [ih (by omega)]
      rw [if_neg (by omega)]
    rw [hread]
    by_cases hj : j = k
    · subst hj
      rw [upd_self, if_pos (by omega)]
    · rw [upd_ne _ _ _ hj, ih (by omega) j]
      split_ifs with h1 h2 h2 <;> first | rfl | omega

lemma expandA_eq (n4 : ℕ) (scale : ℝ) (d : ℕ → ℝ) (j : ℕ) :
    expandA n4 scale d j = if j < n4 then scale * d (2 * n4 + j) else d j := by
  unfold expandA
  exact expandA_aux n4 scale d n4 le_rfl j

lemma expandB_aux (n4 : ℕ) (d : ℕ → ℝ) :
    ∀ k, k ≤ n4 → ∀ j,
      (List.range k).foldl (fun b i => upd b (n4 + i) (-1 * b (n4 - 1 - i))) d j =
        if n4 ≤ j ∧ j < n4 + k then -1 * d (n4 - 1 - (j - n4)) else d j := by
  intro k
  induction k with
  | zero =>
    intro _ j
    simp only [List.range_zero, List.foldl_nil]
    rw [if_neg (by omega)]
  | succ k ih =>
    intro hk j
    rw [List.range_succ, List.foldl_append, List.foldl_cons, List.foldl_nil]
    have hread : (List.range k).foldl (fun b i => upd b (n4 + i) (-1 * b (n4 - 1 - i))) d
        (n4 - 1 - k) = d (n4 - 1 - k) := by
      rw [ih (by omega), if_neg (by omega)]
    rw [hread]
    by_cases hj : j = n4 + k
    · subst hj
      rw [upd_self, if_pos (by omega)]
      have harg : n4 - 1 - (n4 + k - n4) = n4 - 1 - k := by omega
      rw [harg]
    · rw [upd_ne _ _ _ hj, ih (by omega) j]
      split_ifs with h1 h2 h2 <;> first | rfl | omega

lemma expandB_eq (n4 : ℕ) (d : ℕ → ℝ) (j : ℕ) :
    expandB n4 d j =
      if n4 ≤ j ∧ j < 2 * n4 then -1 * d (n4 - 1 - (j - n4)) else d j := by
  unfold expandB
  rw [expandB_aux n4 d n4 le_rfl j]
  split_ifs with h1 h2 h2 <;> first | rfl | omega

lemma expandDC_aux (n4 : ℕ) (scale : ℝ) (d : ℕ → ℝ) :
    ∀ k, k ≤ n4 → ∀ j,
      (List.range k).foldl
        (fun b i =>
          let s := scale * b (n4 + i)
          upd (upd b (3 * n4 + i) s) (2 * n4 + (n4 - 1 - i)) s) d j =
        if 3 * n4 ≤ j ∧ j < 3 * n4 + k then scale * d (n4 + (j - 3 * n4))
        else if 2 * n4 + (n4 - k) ≤ j ∧ j < 3 * n4 then scale * d (n4 + (3 * n4 - 1 - j))
        else d j := by
  intro k
  induction k with
  | zero =>
    intro _ j
    simp only [List.range_zero, List.foldl_nil]
    rw [if_neg (by omega), if_neg (by omega)]
  | succ k ih =>
    intro hk j
    rw [List.range_succ, List.foldl_append, List.foldl_cons, List.foldl_nil]
    simp only []
    have hread : (List.range k).foldl
        (fun b i =>
          let s := scale * b (n4 + i)
          upd (upd b (3 * n4 + i) s) (2 * n4 + (n4 - 1 - i)) s) d (n4 + k)
        = d (n4 + k) := by
      rw [ih (by omega), if_neg (by omega), if_neg (by omega)]
    rw [hread]
    by_cases hj1 : j = 2 * n4 + (n4 - 1 - k)
    · subst hj1
      rw [upd_self, if_neg (by omega), if_pos (by omega)]
      congr 2
      omega
    · rw [upd_ne _ _ _ hj1]
      by_cases hj2 : j = 3 * n4 + k
      · subst hj2
        rw [upd_self, if_pos (by omega)]
        congr 2
        omega
      · rw [upd_ne _ _ _ hj2, ih (by omega) j]
        split_ifs with h1 h2 h3 h4 h5 <;> first | rfl | omega

lemma expandDC_eq (n4 : ℕ) (scale : ℝ) (d : ℕ → ℝ) (j : ℕ) :
    expandDC n4 scale d j =
      if 3 * n4 ≤ j ∧ j < 4 * n4 then scale * d (n4 + (j - 3 * n4))
      else if 2 * n4 ≤ j ∧ j < 3 * n4 then scale * d (n4 + (3 * n4 - 1 - j))
      else d j := by
  unfold expandDC
  rw [expandDC_aux n4 scale d n4 le_rfl j]
  split_ifs with h1 h2 h2 h3 h4 h4 <;> first | rfl | omega

lemma mapCtoB_aux (n4 : ℕ) (d : ℕ → ℝ) :
    ∀ k, k ≤ n4 - 1 → ∀ j,
      (List.range' 1 k).foldl
        (fun b i => upd b (n4 + i) (-1 * (b (2 * n4 + i) + b (n4 + (i - 1)))))
        (upd d n4 (-0.5 * d (2 * n4))) j =
      if n4 ≤ j ∧ j ≤ n4 + k then bRec (fun i => d (2 * n4 + i)) (j - n4) else d j := by
  intro k
  induction k with
  | zero =>
    intro _ j
    simp only [List.range'_zero, List.foldl_nil]
    by_cases hj : j = n4
    · subst hj
      rw [upd_self, if_pos (by omega)]
      simp [bRec]
    · rw [upd_ne _ _ _ hj, if_neg (by omega)]
  | succ k ih =>
    intro hk j
    rw [List.range'_1_concat, List.foldl_append, List.foldl_cons, List.foldl_nil]
    have h1k : 1 + k = k + 1 := by omega
    rw [h1k]
    have hreadc : (List.range' 1 k).foldl
        (fun b i => upd b (n4 + i) (-1 * (b (2 * n4 + i) + b (n4 + (i - 1)))))
        (upd d n4 (-0.5 * d (2 * n4))) (2 * n4 + (k + 1)) = d (2 * n4 + (k + 1)) := by
      rw [ih (by omega), if_neg (by omega)]
    have hreadb : (List.range' 1 k).foldl
        (fun b i => upd b (n4 + i) (-1 * (b (2 * n4 + i) + b (n4 + (i - 1)))))
        (upd d n4 (-0.5 * d (2 * n4))) (n4 + (k + 1 - 1))
        = bRec (fun i => d (2 * n4 + i)) k := by
      rw [ih (by omega), if_pos (by omega)]
      congr 1
      omega
    rw [hreadc, hreadb]
    by_cases hj : j = n4 + (k + 1)
    · subst hj
      rw [upd_self, if_pos (by omega)]
      have : n4 + (k + 1) - n4 = k + 1 := by omega
      rw [this]
      rfl
    · rw [upd_ne _ _ _ hj, ih (by omega) j]
      split_ifs with h1 h2 h2 <;> first | rfl | omega

lemma mapCtoB_eq (n4 : ℕ) (d : ℕ → ℝ) (h4 : 0 < n4) (j : ℕ) :
    mapCtoB n4 d j =
      if n4 ≤ j ∧ j < 2 * n4 then bRec (fun i => d (2 * n4 + i)) (j - n4) else d j := by
  unfold mapCtoB
  rw [mapCtoB_aux n4 d (n4 - 1) le_rfl j]
  split_ifs with h1 h2 h2 <;> first | rfl | omega

lemma mapDtoC_aux (n4 : ℕ) (d : ℕ → ℝ) :
    ∀ k, k ≤ n4 - 1 → ∀ j,
      (List.range' 1 k).foldl
        (fun b i => upd b (2 * n4 + i) (b (3 * n4 + i) - b (2 * n4 + (i - 1))))
        (upd d (2 * n4) (d (3 * n4) + d (n4 + (n4 - 1)))) j =
      if 2 * n4 ≤ j ∧ j ≤ 2 * n4 + k
      then cRec (fun i => d (3 * n4 + i)) (d (n4 + (n4 - 1))) (j - 2 * n4)
      else d j := by
  intro k
  induction k with
  | zero =>
    intro _ j
    simp only [List.range'_zero, List.foldl_nil]
    by_cases hj : j = 2 * n4
    · subst hj
      rw [upd_self, if_pos (by omega)]
      simp [cRec]
    · rw [upd_ne _ _ _ hj, if_neg (by omega)]
  | succ k ih =>
    intro hk j
    rw [List.range'_1_concat, List.foldl_append, List.foldl_cons, List.foldl_nil]
    have h1k : 1 + k = k + 1 := by omega
    rw [h1k]
    have hreadd : (List.range' 1 k).foldl
        (fun b i => upd b (2 * n4 + i) (b (3 * n4 + i) - b (2 * n4 + (i - 1))))
        (upd d (2 * n4) (d (3 * n4) + d (n4 + (n4 - 1)))) (3 * n4 + (k + 1))
        = d (3 * n4 + (k + 1)) := by
      rw [ih (by omega), if_neg (by omega)]
    have hreadc : (List.range' 1 k).foldl
        (fun b i => upd b (2 * n4 + i) (b (3 * n4 + i) - b (2 * n4 + (i - 1))))
        (upd d (2 * n4) (d (3 * n4) + d (n4 + (n4 - 1)))) (2 * n4 + (k + 1 - 1))
        = cRec (fun i => d (3 * n4 + i)) (d (n4 + (n4 - 1))) k := by
      rw [ih (by omega), if_pos (by omega)]
      congr 1
      omega
    rw [hreadd, hreadc]
    by_cases hj : j = 2 * n4 + (k + 1)
    · subst hj
      rw [upd_self, if_pos (by omega)]
      have : 2 * n4 + (k + 1) - 2 * n4 = k + 1 := by omega
      rw [this]
      rfl
    · rw [upd_ne _ _ _ hj, ih (by omega) j]
      split_ifs with h1 h2 h2 <;> first | rfl | omega

lemma mapDtoC_eq (n4 : ℕ) (d : ℕ → ℝ) (h4 : 0 < n4) (j : ℕ) :
    mapDtoC n4 d j =
      if 2 * n4 ≤ j ∧ j < 3 * n4
      then cRec (fun i => d (3 * n4 + i)) (d (n4 + (n4 - 1))) (j - 2 * n4)
      else d j := by
  unfold mapDtoC
  rw [mapDtoC_aux n4 d (n4 - 1) le_rfl j]
  split_ifs with h1 h2 h2 <;> first | rfl | omega

/-! ## Composing the loops: the buffer after each stage -/

lemma bRec_congr (c0 c0' : ℕ → ℝ) (h : ∀ i, c0 i = c0' i) (k : ℕ) :
    bRec c0 k = bRec c0' k := by
  have : c0 = c0' := funext h
  rw [this]

lemma cRec_congr (d0 d0' : ℕ → ℝ) (b b' : ℝ) (h : ∀ i, d0 i = d0' i) (hb : b = b')
    (k : ℕ) : cRec d0 b k = cRec d0' b' k := by
  have : d0 = d0' := funext h
  rw [this, hb]

/-- The buffer after the whole DCT-II → DCT-IV step (`mapCtoB` then
`mapDtoC`), in terms of the buffer `buf2` it started from: region `b` holds
the `bRec` recurrence over the original region `c`, region `c` holds the
`cRec` recurrence over the original region `d`, everything else is
untouched. -/
lemma S3_eq (n4 : ℕ) (h4 : 0 < n4) (buf2 : ℕ → ℝ) (j : ℕ) :
    mapDtoC n4 (mapCtoB n4 buf2) j =
      if 2 * n4 ≤ j ∧ j < 3 * n4 then
        cRec (fun i => buf2 (3 * n4 + i)) (bRec (fun i => buf2 (2 * n4 + i)) (n4 - 1))
          (j - 2 * n4)
      else if n4 ≤ j ∧ j < 2 * n4 then bRec (fun i => buf2 (2 * n4 + i)) (j - n4)
      else buf2 j := by
  have hcc : ∀ k, cRec (fun i => mapCtoB n4 buf2 (3 * n4 + i))
      (mapCtoB n4 buf2 (n4 + (n4 - 1))) k =
      cRec (fun i => buf2 (3 * n4 + i)) (bRec (fun i => buf2 (2 * n4 + i)) (n4 - 1)) k := by
    intro k
    apply cRec_congr
    · intro i
      rw [mapCtoB_eq n4 buf2 h4, if_neg (by omega)]
    · rw [mapCtoB_eq n4 buf2 h4, if_pos (by omega)]
      congr 1
      omega
  rw [mapDtoC_eq n4 _ h4 j]
  by_cases h1 : 2 * n4 ≤ j ∧ j < 3 * n4
  · rw [if_pos h1, if_pos h1, hcc]
  · rw [if_neg h1, if_neg h1, mapCtoB_eq n4 buf2 h4]

/-- The full symmetry-expansion output (`expandA`, `expandDC`, `expandB` in
order) applied to the buffer `S3` produced by the DCT-II → DCT-IV step,
described directly over the original post-DCT buffer `buf2`. -/
lemma finalBuf_eq (n4 : ℕ) (h4 : 0 < n4) (scale : ℝ) (buf2 : ℕ → ℝ) (j : ℕ) :
    expandB n4 (expandDC n4 scale (expandA n4 scale
        (mapDtoC n4 (mapCtoB n4 buf2)))) j =
      if j < n4 then
        scale * cRec (fun i => buf2 (3 * n4 + i))
          (bRec (fun i => buf2 (2 * n4 + i)) (n4 - 1)) j
      else if j < 2 * n4 then
        -1 * (scale * cRec (fun i => buf2 (3 * n4 + i))
          (bRec (fun i => buf2 (2 * n4 + i)) (n4 - 1)) (2 * n4 - 1 - j))
      else if j < 3 * n4 then
        scale * bRec (fun i => buf2 (2 * n4 + i)) (3 * n4 - 1 - j)
      else if j < 4 * n4 then
        scale * bRec (fun i => buf2 (2 * n4 + i)) (j - 3 * n4)
      else buf2 j := by
  set B := bRec (fun i => buf2 (2 * n4 + i)) with hB
  set C := cRec (fun i => buf2 (3 * n4 + i)) (B (n4 - 1)) with hC
  set S3 := mapDtoC n4 (mapCtoB n4 buf2) with hS3def
  have hS3 : ∀ i, S3 i =
      if 2 * n4 ≤ i ∧ i < 3 * n4 then C (i - 2 * n4)
      else if n4 ≤ i ∧ i < 2 * n4 then B (i - n4)
      else buf2 i := fun i => S3_eq n4 h4 buf2 i
  set S4a := expandA n4 scale S3 with hS4adef
  have hS4a : ∀ i, S4a i =
      if i < n4 then scale * C i
      else if 2 * n4 ≤ i ∧ i < 3 * n4 then C (i - 2 * n4)
      else if n4 ≤ i ∧ i < 2 * n4 then B (i - n4)
      else buf2 i := by
    intro i
    rw [hS4adef, expandA_eq]
    by_cases h1 : i < n4
    · rw [if_pos h1, if_pos h1, hS3 (2 * n4 + i), if_pos (by omega)]
      congr 2
      omega
    · rw [if_neg h1, if_neg h1, hS3 i]
  set S4b := expandDC n4 scale S4a with hS4bdef
  have hS4b : ∀ i, S4b i =
      if i < n4 then scale * C i
      else if n4 ≤ i ∧ i < 2 * n4 then B (i - n4)
      else if 2 * n4 ≤ i ∧ i < 3 * n4 then scale * B (3 * n4 - 1 - i)
      else if 3 * n4 ≤ i ∧ i < 4 * n4 then scale * B (i - 3 * n4)
      else buf2 i := by
    intro i
    rw [hS4bdef, expandDC_eq]
    by_cases h1 : 3 * n4 ≤ i ∧ i < 4 * n4
    · have e1 : S4a (n4 + (i - 3 * n4)) = B (i - 3 * n4) := by
        rw [hS4a (n4 + (i - 3 * n4)), if_neg (by omega), if_neg (by omega),
          if_pos (by omega)]
        have harg : n4 + (i - 3 * n4) - n4 = i - 3 * n4 := by omega
        rw [harg]
      rw [if_pos h1, e1, if_neg (by omega), if_neg (by omega), if_neg (by omega),
        if_pos h1]
    · rw [if_neg h1]
      by_cases h2 : 2 * n4 ≤ i ∧ i < 3 * n4
      · have e2 : S4a (n4 + (3 * n4 - 1 - i)) = B (3 * n4 - 1 - i) := by
          rw [hS4a (n4 + (3 * n4 - 1 - i)), if_neg (by omega), if_neg (by omega),
            if_pos (by omega)]
          have harg : n4 + (3 * n4 - 1 - i) - n4 = 3 * n4 - 1 - i := by omega
          rw [harg]
        rw [if_pos h2, e2, if_neg (by omega), if_neg (by omega), if_pos h2]
      · rw [if_neg h2, hS4a i]
        split_ifs <;> first | rfl | omega
  rw [expandB_eq]
  by_cases h1 : n4 ≤ j ∧ j < 2 * n4
  · have e3 : S4b (n4 - 1 - (j - n4)) = scale * C (2 * n4 - 1 - j) := by
      rw [hS4b (n4 - 1 - (j - n4)), if_pos (by omega)]
      have harg : n4 - 1 - (j - n4) = 2 * n4 - 1 - j := by omega
      rw [harg]
    rw [if_pos h1, e3, if_neg (by omega), if_pos (by omega)]
  · rw [if_neg h1, hS4b j]
    split_ifs <;> first | rfl | omega

/-! ## Trigonometric identities driving the DCT-II → DCT-IV → IMDCT reduction -/

lemma trigF_neg (n2 : ℕ) (src : List ℝ) (t : ℤ) :
    trigF n2 src (-t) = trigF n2 src t := by
  unfold trigF
  refine Finset.sum_congr rfl fun j _ => ?_
  have harg : π * ((-t : ℤ) : ℝ) * (2 * (j : ℝ) + 1) / (4 * (n2 : ℝ)) =
      -(π * (t : ℝ) * (2 * (j : ℝ) + 1) / (4 * (n2 : ℝ))) := by
    push_cast
    ring
  rw [harg, Real.cos_neg]

lemma trigF_period (n2 : ℕ) (h2 : 0 < n2) (src : List ℝ) (t : ℤ) :
    trigF n2 src (t + 4 * (n2 : ℤ)) = -trigF n2 src t := by
  unfold trigF
  rw [← Finset.sum_neg_distrib]
  refine Finset.sum_congr rfl fun j _ => ?_
  have hn : (n2 : ℝ) ≠ 0 := by positivity
  have harg : π * ((t + 4 * (n2 : ℤ) : ℤ) : ℝ) * (2 * (j : ℝ) + 1) / (4 * (n2 : ℝ)) =
      (π * (t : ℝ) * (2 * (j : ℝ) + 1) / (4 * (n2 : ℝ)) + π) + (j : ℤ) * (2 * π) := by
    push_cast
    field_simp
    ring
  rw [harg, Real.cos_add_int_mul_two_pi, Real.cos_add_pi]
  ring

/-- The DCT-II of the pre-rotated input is a sum of two adjacent DCT-IV
coefficients: `W_k = Y_k + Y_{k-1}` where `Y_k = trigF n2 src (2k+1)`. -/
lemma dctII_preRotated (n2 : ℕ) (h2 : 0 < n2) (src : List ℝ) (k : ℕ) :
    Dct.dctII n2
      (fun i => src.getD i 0 * (2 * Real.cos (π / (2 * 2 * (n2 : ℝ)) * (2 * (i : ℝ) + 1)))) k
      = trigF n2 src (2 * (k : ℤ) + 1) + trigF n2 src (2 * (k : ℤ) - 1) := by
  unfold Dct.dctII trigF
  rw [← Finset.sum_add_distrib]
  refine Finset.sum_congr rfl fun i _ => ?_
  have hn : (n2 : ℝ) ≠ 0 := by positivity
  have hP : π * ((2 * (k : ℤ) + 1 : ℤ) : ℝ) * (2 * (i : ℝ) + 1) / (4 * (n2 : ℝ)) =
      π * (k : ℝ) * (2 * (i : ℝ) + 1) / (2 * (n2 : ℝ)) +
        π / (2 * 2 * (n2 : ℝ)) * (2 * (i : ℝ) + 1) := by
    push_cast
    field_simp
    ring
  have hQ : π * ((2 * (k : ℤ) - 1 : ℤ) : ℝ) * (2 * (i : ℝ) + 1) / (4 * (n2 : ℝ)) =
      π * (k : ℝ) * (2 * (i : ℝ) + 1) / (2 * (n2 : ℝ)) -
        π / (2 * 2 * (n2 : ℝ)) * (2 * (i : ℝ) + 1) := by
    push_cast
    field_simp
    ring
  rw [hP, hQ, Real.cos_add, Real.cos_sub]
  ring

/-- Closed form of the `c → b` recurrence: `b[k] = -Y_k`. -/
lemma bRec_closed (n2 : ℕ) (src : List ℝ) (c0 : ℕ → ℝ) :
    ∀ k, (∀ i, i ≤ k →
        c0 i = trigF n2 src (2 * (i : ℤ) + 1) + trigF n2 src (2 * (i : ℤ) - 1)) →
      bRec c0 k = -trigF n2 src (2 * (k : ℤ) + 1) := by
  intro k
  induction k with
  | zero =>
    intro hc
    have h0 := hc 0 le_rfl
    have hneg : trigF n2 src (2 * ((0 : ℕ) : ℤ) - 1) = trigF n2 src (2 * ((0 : ℕ) : ℤ) + 1) := by
      have he : (2 * ((0 : ℕ) : ℤ) - 1) = -(2 * ((0 : ℕ) : ℤ) + 1) := by norm_num
      rw [he, trigF_neg]
    simp only [bRec]
    rw [h0, hneg]
    ring
  | succ k ih =>
    intro hc
    have hk1 := hc (k + 1) le_rfl
    have hik := ih fun i hi => hc i (by omega)
    simp only [bRec]
    rw [hk1, hik]
    have he : trigF n2 src (2 * ((k + 1 : ℕ) : ℤ) - 1) = trigF n2 src (2 * (k : ℤ) + 1) := by
      congr 1
      push_cast
      ring
    rw [he]
    ring

/-- Closed form of the `d → c` recurrence: `c[k] = Y_{n4+k}`. -/
lemma cRec_closed (n2 n4 : ℕ) (h4 : 0 < n4) (src : List ℝ) (d0 : ℕ → ℝ) (binit : ℝ)
    (hb : binit = -trigF n2 src (2 * (n4 : ℤ) - 1)) :
    ∀ k, (∀ i, i ≤ k →
        d0 i = trigF n2 src (2 * ((n4 : ℤ) + i) + 1) + trigF n2 src (2 * ((n4 : ℤ) + i) - 1)) →
      cRec d0 binit k = trigF n2 src (2 * ((n4 : ℤ) + k) + 1) := by
  intro k
  induction k with
  | zero =>
    intro hd
    have h0 := hd 0 le_rfl
    simp only [cRec]
    rw [h0, hb]
    have he : (2 * ((n4 : ℤ) + ((0 : ℕ) : ℤ)) - 1) = 2 * (n4 : ℤ) - 1 := by push_cast; ring
    rw [he]
    ring
  | succ k ih =>
    intro hd
    have hk1 := hd (k + 1) le_rfl
    have hik := ih fun i hi => hd i (by omega)
    simp only [cRec]
    rw [hk1, hik]
    have he : trigF n2 src (2 * ((n4 : ℤ) + ((k + 1 : ℕ) : ℤ)) - 1) =
        trigF n2 src (2 * ((n4 : ℤ) + (k : ℤ)) + 1) := by
      congr 1
      push_cast
      ring
    rw [he]
    ring

/-! ## `is_power_of_two` -/

/-- `u32::is_power_of_two` (the check `Imdct::new` performs) holds exactly
on the powers of two. -/
lemma isPow2_iff (n : ℕ) : isPow2 n = true ↔ ∃ k, n = 2 ^ k := by
  constructor
  · intro h
    have hparts : n ≠ 0 ∧ n &&& (n - 1) = 0 := by
      simpa [isPow2, Bool.and_eq_true, bne_iff_ne, beq_iff_eq] using h
    obtain ⟨h0, hand⟩ := hparts
    obtain ⟨i, hi, hmax⟩ := Nat.exists_most_significant_bit h0
    refine ⟨i, Nat.eq_of_testBit_eq fun j => ?_⟩
    rcases lt_trichotomy j i with hji | rfl | hij
    · rw [Nat.testBit_two_pow_of_ne (by omega)]
      by_contra hbit
      rw [Bool.not_eq_false] at hbit
      have hge : 2 ^ i ≤ n := Nat.testBit_implies_ge hi
      have hne : n ≠ 2 ^ i := by
        intro hn
        rw [hn, Nat.testBit_two_pow_of_ne (by omega)] at hbit
        exact Bool.false_ne_true hbit
      have hub : n < 2 ^ (i + 1) := by
        by_contra hub
        push_neg at hub
        have hq0 : n / 2 ^ (i + 1) ≠ 0 := by
          have := Nat.div_pos hub (by positivity : 0 < 2 ^ (i + 1))
          omega
        obtain ⟨kq, hkq, _⟩ := Nat.exists_most_significant_bit hq0
        have : Nat.testBit n (i + 1 + kq) = true := by
          have hs : Nat.testBit (n >>> (i + 1)) kq = Nat.testBit n (i + 1 + kq) :=
            Nat.testBit_shiftRight n
          rw [← hs, Nat.shiftRight_eq_div_pow]
          exact hkq
        rw [hmax (i + 1 + kq) (by omega)] at this
        exact Bool.false_ne_true this
      have hloi : 2 ^ i ≤ n - 1 := by omega
      have hhii : n - 1 < 2 ^ (i + 1) := by omega
      have hdiv : (n - 1) / 2 ^ i = 1 :=
        Nat.div_eq_of_lt_le (by omega) (by rw [pow_succ] at hhii; omega)
      have hbi : Nat.testBit (n - 1) i = true := by
        rw [Nat.testBit_to_div_mod, hdiv]
        decide
      have : Nat.testBit (n &&& (n - 1)) i = true := by
        rw [Nat.testBit_land, hi, hbi]
        rfl
      rw [hand, Nat.zero_testBit] at this
      exact Bool.false_ne_true this
    · rw [hi, Nat.testBit_two_pow_self]
    · rw [hmax j hij, Nat.testBit_two_pow_of_ne (by omega)]
  · rintro ⟨k, rfl⟩
    have h0 : (2 : ℕ) ^ k ≠ 0 := by positivity
    have hand : 2 ^ k &&& (2 ^ k - 1) = 0 := by
      apply Nat.eq_of_testBit_eq
      intro j
      rw [Nat.testBit_land, Nat.zero_testBit, Nat.testBit_two_pow_sub_one]
      by_cases hjk : k = j
      · subst hjk
        simp
      · rw [Nat.testBit_two_pow_of_ne hjk]
        simp
    simp [isPow2, h0, hand]

/-- A power of two that is at least 2 is even (so the quarter regions tile
the buffer exactly: `n2 = 2 * (n2 / 2)`). -/
lemma pow2_even (n : ℕ) (h : isPow2 n = true) (h2 : 2 ≤ n) : n = 2 * (n / 2) := by
  obtain ⟨k, rfl⟩ := (isPow2_iff n).mp h
  cases k with
  | zero => omega
  | succ k =>
    rw [pow_succ]
    omega

/-! ## The master correctness lemma -/

/-- On any instance produced by `Imdct::new` with `n2 ≥ 2`, and buffers of
the required lengths, `Imdct::imdct` succeeds and its output is exactly the
closed-form `scale · Y_{...}` values, where `Y` indices follow the
symmetry-expansion of the DCT-IV (`trigF n2 src (2i+1+n2)`). -/
lemma imdct_ok (n2 : ℕ) (m : Imdct) (src dst : List ℝ) (scale : ℝ)
    (hm : Imdct.new n2 = some m) (h2 : 2 ≤ n2)
    (hs : src.length = n2) (hd : dst.length = 2 * n2) :
    m.imdct src dst scale =
      Except.ok (List.ofFn (fun i : Fin (n2 * 2) =>
        scale * trigF n2 src (2 * ((i : ℕ) : ℤ) + 1 + (n2 : ℤ)))) := by
  unfold Imdct.new at hm
  split_ifs at hm with hp hle
  · rw [Option.some.injEq] at hm
    subst hm
    have hn24 : n2 = 2 * (n2 / 2) := pow2_even n2 hp h2
    set n4 := n2 / 2 with hn4
    have h4 : 0 < n4 := by omega
    set T := List.ofFn (fun i : Fin n2 =>
      2 * Real.cos (π / (2 * 2 * (n2 : ℝ)) * (2 * (i : ℝ) + 1))) with hT
    show Imdct.imdct ⟨Dct.new n2, n2, T⟩ src dst scale = _
    unfold Imdct.imdct
    simp only
    rw [if_pos (by omega : dst.length = n2 * 2), if_pos hs,
      if_neg (by omega : ¬ n2 / 2 = 0)]
    set buf0 : ℕ → ℝ := fun i => dst.getD i 0 with hbuf0
    set pre := preRotate n2 src T buf0 with hpre
    set buf2 := dctStep n2 pre with hbuf2
    have hTlen : T.length = n2 := by
      rw [hT, List.length_ofFn]
    have hLen : preRotateLen n2 src T = n2 := by
      rw [preRotateLen, hs, hTlen]
      omega
    have hW : ∀ kk, kk < n2 → buf2 (n2 + kk) =
        trigF n2 src (2 * (kk : ℤ) + 1) + trigF n2 src (2 * (kk : ℤ) - 1) := by
      intro kk hkk
      rw [hbuf2]
      show (if n2 ≤ n2 + kk ∧ n2 + kk < n2 + n2
          then Dct.dctII n2 (fun i => pre (n2 + i)) (n2 + kk - n2)
          else pre (n2 + kk)) = _
      rw [if_pos (by omega)]
      have harg : n2 + kk - n2 = kk := by omega
      rw [harg, ← dctII_preRotated n2 (by omega) src kk]
      unfold Dct.dctII
      refine Finset.sum_congr rfl fun i hi => ?_
      have hi2 : i < n2 := Finset.mem_range.mp hi
      have hpreval : pre (n2 + i) =
          src.getD i 0 * (2 * Real.cos (π / (2 * 2 * (n2 : ℝ)) * (2 * (i : ℝ) + 1))) := by
        rw [hpre, preRotate_eq, hLen, if_pos (by omega)]
        have harg2 : n2 + i - n2 = i := by omega
        rw [harg2, hT, getD_ofFn _ hi2]
      simp only [hpreval]
    have hc0 : ∀ i2, i2 < n2 → buf2 (2 * n4 + i2) =
        trigF n2 src (2 * (i2 : ℤ) + 1) + trigF n2 src (2 * (i2 : ℤ) - 1) := by
      intro i2 hi2
      have he : 2 * n4 + i2 = n2 + i2 := by omega
      rw [he, hW i2 hi2]
    have hB : ∀ k, k ≤ n4 - 1 → bRec (fun i2 => buf2 (2 * n4 + i2)) k =
        -trigF n2 src (2 * (k : ℤ) + 1) :=
      fun k hk => bRec_closed n2 src _ k (fun i hi => hc0 i (by omega))
    have hBinit : bRec (fun i2 => buf2 (2 * n4 + i2)) (n4 - 1) =
        -trigF n2 src (2 * (n4 : ℤ) - 1) := by
      rw [hB (n4 - 1) le_rfl]
      have he : (2 * (((n4 - 1 : ℕ)) : ℤ) + 1) = 2 * (n4 : ℤ) - 1 := by omega
      rw [he]
    have hC : ∀ k, k ≤ n4 - 1 →
        cRec (fun i2 => buf2 (3 * n4 + i2)) (bRec (fun i2 => buf2 (2 * n4 + i2)) (n4 - 1)) k =
          trigF n2 src (2 * ((n4 : ℤ) + (k : ℤ)) + 1) := by
      intro k hk
      refine cRec_closed n2 n4 h4 src _ _ hBinit k (fun i hi => ?_)
      have he : 3 * n4 + i = n2 + (n4 + i) := by omega
      rw [he, hW (n4 + i) (by omega)]
      have he1 : (2 * (((n4 + i : ℕ)) : ℤ) + 1) = 2 * ((n4 : ℤ) + (i : ℤ)) + 1 := by omega
      have he2 : (2 * (((n4 + i : ℕ)) : ℤ) - 1) = 2 * ((n4 : ℤ) + (i : ℤ)) - 1 := by omega
      rw [he1, he2]
    have hQ23 : ∀ j : ℕ, n4 ≤ j → j < 3 * n4 →
        trigF n2 src (2 * (j : ℤ) + 1 + (n2 : ℤ)) =
          -trigF n2 src (2 * ((3 * n4 - 1 - j : ℕ) : ℤ) + 1) := by
      intro j hj1 hj2
      have hper := trigF_period n2 (by omega) src
        (2 * (j : ℤ) + 1 + (n2 : ℤ) - 4 * (n2 : ℤ))
      have h1 : (2 * (j : ℤ) + 1 + (n2 : ℤ) - 4 * (n2 : ℤ)) + 4 * (n2 : ℤ) =
          2 * (j : ℤ) + 1 + (n2 : ℤ) := by ring
      rw [h1] at hper
      rw [hper]
      have h2' : (2 * (j : ℤ) + 1 + (n2 : ℤ) - 4 * (n2 : ℤ)) =
          -(2 * ((3 * n4 - 1 - j : ℕ) : ℤ) + 1) := by omega
      rw [h2', trigF_neg]
    have hQ4 : ∀ j : ℕ, 3 * n4 ≤ j → j < 4 * n4 →
        trigF n2 src (2 * (j : ℤ) + 1 + (n2 : ℤ)) =
          -trigF n2 src (2 * ((j - 3 * n4 : ℕ) : ℤ) + 1) := by
      intro j hj1 hj2
      have hper := trigF_period n2 (by omega) src (2 * ((j - 3 * n4 : ℕ) : ℤ) + 1)
      have h1 : (2 * ((j - 3 * n4 : ℕ) : ℤ) + 1) + 4 * (n2 : ℤ) =
          2 * (j : ℤ) + 1 + (n2 : ℤ) := by omega
      rw [h1] at hper
      rw [hper]
    congr 1
    apply congrArg
    funext i
    have hi4 : (i : ℕ) < 4 * n4 := by
      have := i.isLt
      omega
    rw [finalBuf_eq n4 h4 scale buf2 (i : ℕ)]
    by_cases hq1 : (i : ℕ) < n4
    · rw [if_pos hq1, hC (i : ℕ) (by omega)]
      congr 2
      omega
    · rw [if_neg hq1]
      by_cases hq2 : (i : ℕ) < 2 * n4
      · rw [if_pos hq2, hC (2 * n4 - 1 - (i : ℕ)) (by omega),
          hQ23 (i : ℕ) (by omega) (by omega)]
        have he : (2 * ((n4 : ℤ) + ((2 * n4 - 1 - (i : ℕ) : ℕ) : ℤ)) + 1) =
            2 * ((3 * n4 - 1 - (i : ℕ) : ℕ) : ℤ) + 1 := by omega
        rw [he]
        ring
      · rw [if_neg hq2]
        by_cases hq3 : (i : ℕ) < 3 * n4
        · rw [if_pos hq3, hB (3 * n4 - 1 - (i : ℕ)) (by omega),
            hQ23 (i : ℕ) (by omega) (by omega)]
        · rw [if_neg hq3, if_pos hi4, hB ((i : ℕ) - 3 * n4) (by omega),
            hQ4 (i : ℕ) (by omega) (by omega)]
  all_goals exact absurd hm (by simp)

/-- The test reference `imdct_analytical` computes exactly the `trigF` closed
form `scale · trigF len src (2i+1+len)` at each output index. -/
lemma imdct_analytical_eq_trigF (src : List ℝ) (scale : ℝ) (h0 : 0 < src.length) :
    imdct_analytical src scale =
      List.ofFn (fun i : Fin (src.length * 2) =>
        scale * trigF src.length src (2 * ((i : ℕ) : ℤ) + 1 + (src.length : ℤ))) := by
  apply List.ext_getElem
  · simp only [imdct_analytical, List.length_ofFn]
    omega
  · intro idx h1 h2
    unfold imdct_analytical at h1 ⊢
    rw [List.getElem_ofFn, List.getElem_ofFn]
    simp only [List.length_ofFn] at h1 h2
    unfold trigF
    rw [Finset.mul_sum, Finset.mul_sum]
    refine Finset.sum_congr rfl fun j hj => ?_
    have hn : (src.length : ℝ) ≠ 0 := by positivity
    have harg : π / (2 * (2 * (src.length : ℝ))) *
        ((2 * ((idx : ℕ) : ℝ) + 1 + (src.length : ℝ)) * (2 * (j : ℝ) + 1)) =
        π * ((2 * ((idx : ℕ) : ℤ) + 1 + (src.length : ℤ) : ℤ) : ℝ) * (2 * (j : ℝ) + 1) /
          (4 * (src.length : ℝ)) := by
      push_cast
      field_simp
      ring
    rw [harg]

/-- C1.  For every instance built by `Imdct::new` for a power of two
`n2 ≥ 2` (for `n2 = 1` the call aborts, see the C10 theorem), every `src` of
length `n2`, every `dst` of length `2·n2` and every `scale`, `Imdct::imdct`
succeeds and its output equals — exactly, in the real-valued model —
`tests::imdct_analytical`, i.e. `dst[i] = scale · Σ_{j<n2} src[j] ·
cos(π/(2·2·n2) · (2i+1+n2)(2j+1))` for every `i < 2·n2`.  Exact equality
implies the claim's 1e-5 tolerance. -/
theorem imdct_matches_analytical (n2 : ℕ) (m : Imdct) (src dst : List ℝ) (scale : ℝ)
    (hm : Imdct.new n2 = some m) (h2 : 2 ≤ n2)
    (hs : src.length = n2) (hd : dst.length = 2 * n2) :
    m.imdct src dst scale = Except.ok (imdct_analytical src scale) := by
  subst hs
  rw [imdct_ok src.length m src dst scale hm h2 rfl hd,
    imdct_analytical_eq_trigF src scale (by omega)]

/-- C1, witness: a concrete run at `n2 = 2`. -/
theorem imdct_matches_analytical_witness :
    ∃ m, Imdct.new 2 = some m ∧
      m.imdct [1, 0] [0, 0, 0, 0] 1 = Except.ok (imdct_analytical [1, 0] 1) := by
  refine ⟨_, rfl, ?_⟩
  exact imdct_matches_analytical 2 _ [1, 0] [0, 0, 0, 0] 1 rfl (by norm_num)
    (by simp) (by simp)

/-- C2, counterexample.  The claim says the second expansion loop stores
`s = scale · B[i]` at `D[N/4-1-i]`; the code stores it at `D[i]` (the `d`
region is iterated forward, only `c` is reversed).  Concretely, with
`n4 = N/4 = 2`, `scale = 1`, and the post-`expandA` buffer `d j = j`
(regions: `b` at cells 2-3, `c` at 4-5, `d` at 6-7), at `i = 0` the cell
`D[n4-1-0]` (absolute index `3·2 + (2-1-0) = 7`) ends up holding
`scale · B[1] = 3`, not `scale · B[0] = 2` as claimed. -/
theorem expandDC_reversed_d_counterexample :
    expandDC 2 1 (fun j => (j : ℝ)) (3 * 2 + (2 - 1 - 0)) ≠
      1 * (fun j => (j : ℝ)) (2 + 0) := by
  rw [expandDC_eq]
  norm_num

/-- C2, amended.  In the second expansion loop, for every `i ∈ [0, N/4)`
the single value `s = scale · B[i]` is stored at `D[i]` (forward) and at
`C[N/4-1-i]` (reversed), so that afterwards `D` is a scaled forward copy of
`B` and `C` is a scaled, index-reversed copy of `B`.  Stated over an
arbitrary buffer `d` (the state after region `A` has been filled from `C`);
region `B` occupies cells `n4+i`, `C` cells `2·n4+i`, `D` cells `3·n4+i`. -/
theorem expandDC_stores_forward_d_reversed_c (n4 : ℕ) (scale : ℝ) (d : ℕ → ℝ)
    (i : ℕ) (hi : i < n4) :
    expandDC n4 scale d (3 * n4 + i) = scale * d (n4 + i) ∧
    expandDC n4 scale d (2 * n4 + (n4 - 1 - i)) = scale * d (n4 + i) := by
  constructor
  · rw [expandDC_eq, if_pos (by omega)]
    have harg : n4 + (3 * n4 + i - 3 * n4) = n4 + i := by omega
    rw [harg]
  · rw [expandDC_eq, if_neg (by omega), if_pos (by omega)]
    have harg : n4 + (3 * n4 - 1 - (2 * n4 + (n4 - 1 - i))) = n4 + i := by omega
    rw [harg]

/-- C2, witness for the amended statement: `n4 = 1`, `scale = 2`,
buffer `d j = j`, `i = 0`. -/
theorem expandDC_stores_forward_d_reversed_c_witness :
    expandDC 1 2 (fun j => (j : ℝ)) (3 * 1 + 0) = 2 * ((1 + 0 : ℕ) : ℝ) ∧
    expandDC 1 2 (fun j => (j : ℝ)) (2 * 1 + (1 - 1 - 0)) = 2 * ((1 + 0 : ℕ) : ℝ) :=
  expandDC_stores_forward_d_reversed_c 1 2 (fun j => (j : ℝ)) 0 (by norm_num)

/-- C3.  The DCT-II → DCT-IV step (`mapCtoB` then `mapDtoC`, over any
buffer `buf` whose regions `C` = cells `[2n4,3n4)` and `D` = cells
`[3n4,4n4)` hold the DCT-II output) computes exactly
`B[0] = -0.5·C[0]`, `B[i] = -(C[i]+B[i-1])` for `i = 1..n4-1`,
`C[0] = D[0]+B[n4-1]`, `C[i] = D[i]-C[i-1]` for `i = 1..n4-1` (overwriting
`C` in place while `B` and the original `D` are read), and touches no cell
outside regions `B` and `C`. -/
theorem dctII_to_dctIV_recurrences (n4 : ℕ) (buf : ℕ → ℝ) (h4 : 0 < n4) :
    (mapDtoC n4 (mapCtoB n4 buf) n4 = -0.5 * buf (2 * n4)) ∧
    (∀ i, 1 ≤ i → i < n4 →
      mapDtoC n4 (mapCtoB n4 buf) (n4 + i) =
        -1 * (buf (2 * n4 + i) + mapDtoC n4 (mapCtoB n4 buf) (n4 + i - 1))) ∧
    (mapDtoC n4 (mapCtoB n4 buf) (2 * n4) =
      buf (3 * n4) + mapDtoC n4 (mapCtoB n4 buf) (n4 + (n4 - 1))) ∧
    (∀ i, 1 ≤ i → i < n4 →
      mapDtoC n4 (mapCtoB n4 buf) (2 * n4 + i) =
        buf (3 * n4 + i) - mapDtoC n4 (mapCtoB n4 buf) (2 * n4 + i - 1)) ∧
    (∀ j, j < n4 ∨ 3 * n4 ≤ j → mapDtoC n4 (mapCtoB n4 buf) j = buf j) := by
  refine ⟨?_, ?_, ?_, ?_, ?_⟩
  · rw [S3_eq n4 h4 buf n4, if_neg (by omega), if_pos (by omega), Nat.sub_self]
    simp [bRec]
  · intro i h1 hi
    obtain ⟨i2, rfl⟩ : ∃ i2, i = i2 + 1 := ⟨i - 1, by omega⟩
    rw [S3_eq n4 h4 buf (n4 + (i2 + 1)), if_neg (by omega), if_pos (by omega),
      S3_eq n4 h4 buf (n4 + (i2 + 1) - 1), if_neg (by omega), if_pos (by omega)]
    have ha1 : n4 + (i2 + 1) - n4 = i2 + 1 := by omega
    have ha2 : n4 + (i2 + 1) - 1 - n4 = i2 := by omega
    rw [ha1, ha2]
    rfl
  · rw [S3_eq n4 h4 buf (2 * n4), if_pos (by omega), Nat.sub_self,
      S3_eq n4 h4 buf (n4 + (n4 - 1)), if_neg (by omega), if_pos (by omega)]
    have ha : n4 + (n4 - 1) - n4 = n4 - 1 := by omega
    rw [ha]
    rfl
  · intro i h1 hi
    obtain ⟨i2, rfl⟩ : ∃ i2, i = i2 + 1 := ⟨i - 1, by omega⟩
    rw [S3_eq n4 h4 buf (2 * n4 + (i2 + 1)), if_pos (by omega),
      S3_eq n4 h4 buf (2 * n4 + (i2 + 1) - 1), if_pos (by omega)]
    have ha1 : 2 * n4 + (i2 + 1) - 2 * n4 = i2 + 1 := by omega
    have ha2 : 2 * n4 + (i2 + 1) - 1 - 2 * n4 = i2 := by omega
    rw [ha1, ha2]
    rfl
  · intro j hj
    rw [S3_eq n4 h4 buf j, if_neg (by omega), if_neg (by omega)]

/-- C3, witness: `n4 = 1` over the buffer `buf j = j`. -/
theorem dctII_to_dctIV_recurrences_witness :
    (mapDtoC 1 (mapCtoB 1 (fun j => (j : ℝ))) 1 = -0.5 * ((2 * 1 : ℕ) : ℝ)) ∧
    (∀ i, 1 ≤ i → i < 1 →
      mapDtoC 1 (mapCtoB 1 (fun j => (j : ℝ))) (1 + i) =
        -1 * (((2 * 1 + i : ℕ) : ℝ) +
          mapDtoC 1 (mapCtoB 1 (fun j => (j : ℝ))) (1 + i - 1))) ∧
    (mapDtoC 1 (mapCtoB 1 (fun j => (j : ℝ))) (2 * 1) =
      ((3 * 1 : ℕ) : ℝ) +
        mapDtoC 1 (mapCtoB 1 (fun j => (j : ℝ))) (1 + (1 - 1))) ∧
    (∀ i, 1 ≤ i → i < 1 →
      mapDtoC 1 (mapCtoB 1 (fun j => (j : ℝ))) (2 * 1 + i) =
        ((3 * 1 + i : ℕ) : ℝ) -
          mapDtoC 1 (mapCtoB 1 (fun j => (j : ℝ))) (2 * 1 + i - 1)) ∧
    (∀ j, j < 1 ∨ 3 * 1 ≤ j → mapDtoC 1 (mapCtoB 1 (fun j => (j : ℝ))) j = (j : ℝ)) :=
  dctII_to_dctIV_recurrences 1 (fun j => (j : ℝ)) (by norm_num)

/-- C4.  Any instance produced by `Imdct::new n` carries a twiddle table of
length `n` whose `i`-th entry is exactly `2 · cos(c · (2i+1))` with
`c = π / (4·n)` — in the real-valued model, the exact value of the `f64`
precomputation the source performs (before the per-entry narrowing to
`f32`).  The table is a field of the immutable configuration; `Imdct.imdct`
is a function of it, so no operation of the model mutates it. -/
theorem new_table_values (n : ℕ) (m : Imdct) (hm : Imdct.new n = some m) :
    m.table.length = n ∧
      ∀ i, i < n →
        m.table.getD i 0 = 2 * Real.cos (π / (4 * (n : ℝ)) * (2 * (i : ℝ) + 1)) := by
  unfold Imdct.new at hm
  split_ifs at hm with hp hle
  · rw [Option.some.injEq] at hm
    subst hm
    refine ⟨?_, fun i hi => ?_⟩
    · show (List.ofFn (fun i : Fin n =>
          2 * Real.cos (π / (2 * 2 * (n : ℝ)) * (2 * (i : ℝ) + 1)))).length = n
      exact List.length_ofFn _
    · show (List.ofFn (fun i : Fin n =>
          2 * Real.cos (π / (2 * 2 * (n : ℝ)) * (2 * (i : ℝ) + 1)))).getD i 0 = _
      rw [getD_ofFn _ hi]
      norm_num
  all_goals exact absurd hm (by simp)

/-- C4, witness: the table of the 2-point instance. -/
theorem new_table_values_witness :
    ∃ m, Imdct.new 2 = some m ∧ (m.table.length = 2 ∧
      ∀ i, i < 2 →
        m.table.getD i 0 = 2 * Real.cos (π / (4 * (2 : ℝ)) * (2 * (i : ℝ) + 1))) :=
  ⟨_, rfl, new_table_values 2 _ rfl⟩

/-- C5.  `Imdct::new n` succeeds exactly when `n` is a power of two and
`n ≤ 8192`, never coerces `n` (the stored size equals the requested one),
succeeds at `n = 8192`, and fails at `n = 8193` and at the non-power-of-two
`n = 100`. -/
theorem new_succeeds_iff :
    (∀ n : ℕ, (∃ m, Imdct.new n = some m) ↔ ((∃ k, n = 2 ^ k) ∧ n ≤ 8192)) ∧
    (∀ n m, Imdct.new n = some m → m.n = n) ∧
    (∃ m, Imdct.new 8192 = some m) ∧
    Imdct.new 8193 = none ∧ Imdct.new 100 = none := by
  have hiff : ∀ n : ℕ, (∃ m, Imdct.new n = some m) ↔ ((∃ k, n = 2 ^ k) ∧ n ≤ 8192) := by
    intro n
    constructor
    · rintro ⟨m, hm⟩
      unfold Imdct.new at hm
      split_ifs at hm with hp hle
      · exact ⟨(isPow2_iff n).mp hp, hle⟩
      all_goals exact absurd hm (by simp)
    · rintro ⟨hpow, hle⟩
      unfold Imdct.new
      rw [if_pos ((isPow2_iff n).mpr hpow), if_pos hle]
      exact ⟨_, rfl⟩
  refine ⟨hiff, ?_, ?_, rfl, rfl⟩
  · intro n m hm
    unfold Imdct.new at hm
    split_ifs at hm with hp hle
    · rw [Option.some.injEq] at hm
      subst hm
      rfl
    all_goals exact absurd hm (by simp)
  · exact (hiff 8192).mpr ⟨⟨13, by norm_num⟩, by norm_num⟩

/-- C5, witness: `8192 = 2^13` is accepted. -/
theorem new_succeeds_iff_witness : ∃ m, Imdct.new 8192 = some m :=
  (new_succeeds_iff.1 8192).mpr ⟨⟨13, by norm_num⟩, by norm_num⟩

/-- C6.  If `src` does not have length `N` or `dst` does not have length
`2N`, the call fails (the `assert_eq!` panics) before any store: the error
carries `dst` exactly as it was passed in. -/
theorem imdct_length_violation (m : Imdct) (src dst : List ℝ) (scale : ℝ)
    (h : src.length ≠ m.n ∨ dst.length ≠ 2 * m.n) :
    m.imdct src dst scale = Except.error dst := by
  unfold Imdct.imdct
  simp only
  rcases h with h | h
  · by_cases hdl : dst.length = m.n * 2
    · rw [if_pos hdl, if_neg h]
    · rw [if_neg hdl]
  · rw [if_neg (by omega)]

/-- C6, witness: a 2-point instance called with a 1-element `src` and an
empty `dst`. -/
theorem imdct_length_violation_witness :
    (Imdct.mk (Dct.new 2) 2 []).imdct [1] [] 0 = Except.error [] :=
  imdct_length_violation (Imdct.mk (Dct.new 2) 2 []) [1] [] 0 (Or.inl (by decide))

/-- C7.  On a valid call, every element of `dst` is overwritten: the
operation succeeds with an output of length `2·n2` that is the same for
every destination buffer of the right length, i.e. the result is a function
of `(src, scale)` alone given the configuration (in this model `src` and
the instance are read-only values, so they are unmodified by construction;
the twiddle table of every constructed instance has length `n2` by the C4
theorem's argument). -/
theorem imdct_overwrites_dst (n2 : ℕ) (m : Imdct) (src dst : List ℝ) (scale : ℝ)
    (hm : Imdct.new n2 = some m) (h2 : 2 ≤ n2)
    (hs : src.length = n2) (hd : dst.length = 2 * n2) :
    ∃ out, m.imdct src dst scale = Except.ok out ∧ out.length = 2 * n2 ∧
      ∀ dst2 : List ℝ, dst2.length = 2 * n2 →
        m.imdct src dst2 scale = Except.ok out := by
  refine ⟨_, imdct_ok n2 m src dst scale hm h2 hs hd, ?_, fun dst2 hd2 =>
    imdct_ok n2 m src dst2 scale hm h2 hs hd2⟩
  rw [List.length_ofFn]
  omega

/-- C7, witness: `n2 = 2` with two different prior `dst` contents. -/
theorem imdct_overwrites_dst_witness :
    ∃ m, Imdct.new 2 = some m ∧
      ∃ out, m.imdct [0, 0] [5, 6, 7, 8] 0 = Except.ok out ∧ out.length = 2 * 2 ∧
        ∀ dst2 : List ℝ, dst2.length = 2 * 2 →
          m.imdct [0, 0] dst2 0 = Except.ok out :=
  ⟨_, rfl, imdct_overwrites_dst 2 _ [0, 0] [5, 6, 7, 8] 0 rfl (by norm_num)
    (by simp) (by simp)⟩

/-- C8.  Determinism: two calls on instances of the same configuration with
identical `src`, identical `scale` and destination buffers of the required
length produce identical results (the prior contents of the destinations
are irrelevant). -/
theorem imdct_deterministic (n2 : ℕ) (m1 m2 : Imdct) (src dst1 dst2 : List ℝ)
    (scale : ℝ) (hm1 : Imdct.new n2 = some m1) (hm2 : Imdct.new n2 = some m2)
    (h2 : 2 ≤ n2) (hs : src.length = n2)
    (hd1 : dst1.length = 2 * n2) (hd2 : dst2.length = 2 * n2) :
    m1.imdct src dst1 scale = m2.imdct src dst2 scale := by
  rw [imdct_ok n2 m1 src dst1 scale hm1 h2 hs hd1,
    imdct_ok n2 m2 src dst2 scale hm2 h2 hs hd2]

/-- C8, witness: `n2 = 2`, same inputs, different prior `dst` contents. -/
theorem imdct_deterministic_witness :
    ∃ m, Imdct.new 2 = some m ∧
      m.imdct [1, 2] [1, 1, 1, 1] 3 = m.imdct [1, 2] [4, 4, 4, 4] 3 :=
  ⟨_, rfl, imdct_deterministic 2 _ _ [1, 2] [1, 1, 1, 1] [4, 4, 4, 4] 3 rfl rfl
    (by norm_num) (by simp) (by simp) (by simp)⟩

/-- C9.  Scale homogeneity: with everything else equal, the output at scale
`k · scale` is elementwise `k` times the output at scale `scale` — exactly,
in the real-valued model. -/
theorem imdct_scale_homogeneous (n2 : ℕ) (m : Imdct) (src dst : List ℝ)
    (scale k : ℝ) (hm : Imdct.new n2 = some m) (h2 : 2 ≤ n2)
    (hs : src.length = n2) (hd : dst.length = 2 * n2) :
    ∃ out kout, m.imdct src dst scale = Except.ok out ∧
      m.imdct src dst (k * scale) = Except.ok kout ∧
      out.length = 2 * n2 ∧ kout.length = 2 * n2 ∧
      ∀ i, i < 2 * n2 → kout.getD i 0 = k * out.getD i 0 := by
  refine ⟨_, _, imdct_ok n2 m src dst scale hm h2 hs hd,
    imdct_ok n2 m src dst (k * scale) hm h2 hs hd,
    by rw [List.length_ofFn]; omega, by rw [List.length_ofFn]; omega,
    fun i hi => ?_⟩
  have hi2 : i < n2 * 2 := by omega
  rw [getD_ofFn _ hi2, getD_ofFn _ hi2]
  ring

/-- C9, witness: `n2 = 2`, `k = 3`. -/
theorem imdct_scale_homogeneous_witness :
    ∃ m, Imdct.new 2 = some m ∧
      ∃ out kout, m.imdct [1, 2] [0, 0, 0, 0] 1 = Except.ok out ∧
        m.imdct [1, 2] [0, 0, 0, 0] ((3 : ℝ) * 1) = Except.ok kout ∧
        out.length = 2 * 2 ∧ kout.length = 2 * 2 ∧
        ∀ i, i < 2 * 2 → kout.getD i 0 = 3 * out.getD i 0 :=
  ⟨_, rfl, imdct_scale_homogeneous 2 _ [1, 2] [0, 0, 0, 0] 1 3 rfl (by norm_num)
    (by simp) (by simp)⟩

/-- A run of `imdct` on the 1-point instance: the length checks pass, the
pre-rotation and 1-point DCT-II rewrite `dst[1]` to `src[0] · 2cos(π/4) =
src[0] · √2`, and then `b[0] = -0.5 * c[0]` indexes the empty region `b`
(`n4 = 0`), aborting with the half-rewritten buffer. -/
lemma imdct_n1_run (m : Imdct) (src dst : List ℝ) (scale : ℝ)
    (hm : Imdct.new 1 = some m) (hs : src.length = 1) (hd : dst.length = 2) :
    m.imdct src dst scale =
      Except.error [dst.getD 0 0, src.getD 0 0 * Real.sqrt 2] := by
  rw [show Imdct.new 1 = some (⟨Dct.new 1, 1, List.ofFn (fun i : Fin 1 =>
      2 * Real.cos (π / (2 * 2 * ((1 : ℕ) : ℝ)) * (2 * (i : ℝ) + 1)))⟩ : Imdct)
      from rfl] at hm
  rw [Option.some.injEq] at hm
  subst hm
  set T1 := List.ofFn (fun i : Fin 1 =>
    2 * Real.cos (π / (2 * 2 * ((1 : ℕ) : ℝ)) * (2 * (i : ℝ) + 1))) with hT1
  unfold Imdct.imdct
  simp only
  rw [if_pos (by omega : dst.length = 1 * 2), if_pos hs, if_pos trivial]
  congr 1
  have hTv : T1.getD 0 0 = Real.sqrt 2 := by
    have h0 : T1.getD 0 0 =
        2 * Real.cos (π / (2 * 2 * ((1 : ℕ) : ℝ)) * (2 * (((0 : Fin 1)) : ℝ) + 1)) := rfl
    rw [h0]
    have harg : π / (2 * 2 * ((1 : ℕ) : ℝ)) * (2 * (((0 : Fin 1)) : ℝ) + 1) = π / 4 := by
      norm_num
    rw [harg, Real.cos_pi_div_four]
    ring
  have hpre0 : preRotate 1 src T1 (fun i => dst.getD i 0) 0 = dst.getD 0 0 := by
    rw [preRotate_eq, if_neg (by omega)]
  have hlen : preRotateLen 1 src T1 = 1 := by
    rw [preRotateLen, hs, hT1, List.length_ofFn]
    simp
  have hpre1 : preRotate 1 src T1 (fun i => dst.getD i 0) 1 =
      src.getD 0 0 * Real.sqrt 2 := by
    rw [preRotate_eq, hlen, if_pos (by omega)]
    rw [show ((1 : ℕ) - 1) = 0 from rfl, hTv]
  have hbuf0 : dctStep 1 (preRotate 1 src T1 (fun i => dst.getD i 0)) 0 =
      dst.getD 0 0 := by
    unfold dctStep
    rw [if_neg (by omega)]
    exact hpre0
  have hbuf1 : dctStep 1 (preRotate 1 src T1 (fun i => dst.getD i 0)) 1 =
      src.getD 0 0 * Real.sqrt 2 := by
    unfold dctStep
    rw [if_pos (by omega)]
    unfold Dct.dctII
    simp only [Finset.sum_range_one]
    rw [show ((1 : ℕ) - 1) = 0 from rfl]
    rw [show π * ((0 : ℕ) : ℝ) * (2 * ((0 : ℕ) : ℝ) + 1) / (2 * ((1 : ℕ) : ℝ)) = 0
      by norm_num]
    rw [Real.cos_zero, mul_one]
    rw [show (1 + 0 : ℕ) = 1 from rfl]
    exact hpre1
  show List.ofFn (fun i : Fin 2 =>
      dctStep 1 (preRotate 1 src T1 (fun i => dst.getD i 0)) (i : ℕ)) = _
  rw [show (List.ofFn (fun i : Fin 2 =>
      dctStep 1 (preRotate 1 src T1 (fun i => dst.getD i 0)) (i : ℕ))) =
      [dctStep 1 (preRotate 1 src T1 (fun i => dst.getD i 0)) 0,
       dctStep 1 (preRotate 1 src T1 (fun i => dst.getD i 0)) 1] from rfl]
  rw [hbuf0, hbuf1]

/-- C10.  `Imdct::new 1` succeeds (1 is a power of two not exceeding 8192),
but `imdct` on that instance with `src` of length 1 and `dst` of length 2
passes both length checks, rewrites the second half of `dst` (the single
cell `dst[1]` becomes `src[0] · table[0] = src[0] · √2` after the
pre-rotation and the 1-point DCT-II) and then panics out of bounds at
`b[0] = -0.5 * c[0]`, since the quarter regions have length `n4 = 0`; for
every power-of-two `n2 ≥ 2` every access is in bounds and the call
succeeds. -/
theorem imdct_n1_out_of_bounds :
    (Imdct.new 1).isSome = true ∧
    (∀ m src dst scale, Imdct.new 1 = some m →
      src.length = 1 → dst.length = 2 →
      m.imdct src dst scale =
        Except.error [dst.getD 0 0, src.getD 0 0 * Real.sqrt 2]) ∧
    (∀ n2 m src dst scale, Imdct.new n2 = some m → 2 ≤ n2 →
      src.length = n2 → dst.length = 2 * n2 →
      ∃ out, m.imdct src dst scale = Except.ok out) := by
  exact ⟨rfl, fun m src dst scale hm hs hd => imdct_n1_run m src dst scale hm hs hd,
    fun n2 m src dst scale hm h2 hs hd => ⟨_, imdct_ok n2 m src dst scale hm h2 hs hd⟩⟩

/-- C10, witness: the 1-point instance on `src = [1]`, `dst = [0, 0]`
aborts with `dst = [0, √2]`. -/
theorem imdct_n1_out_of_bounds_witness :
    ∃ m, Imdct.new 1 = some m ∧
      m.imdct [1] [0, 0] 0 = Except.error [0, Real.sqrt 2] := by
  refine ⟨_, rfl, ?_⟩
  have h := imdct_n1_out_of_bounds.2.1 _ [1] [0, 0] 0 rfl (by simp) (by simp)
  simpa using h

end Symphonia
